import Mathlib

/-! # Order queue of `src/main.cpp`

A shallow embedding of the producer/worker order queue.

* `Order` is the value struct of lines 10-14.
* `OrderQueue` holds the two pieces of data the mutex `m` protects: the
  `std::queue<Order> q` (a list, front first) and the flag `done`.
  Every member function takes the mutex for its whole body, so each call is
  one atomic transition of this state.
* `cv.wait(lock, pred)` returns only in a state where `pred` holds, with the
  lock held.  A call of `pop` is therefore one guarded atomic transition: it
  has no transition (`none`) in a state where the predicate
  `!q.empty() || done` is false, which is where the calling thread stays
  blocked.
-/

namespace OrderProcessing

/-- The struct `Order` (main.cpp:10-14).  The `double` field is carried as a
rational number: every price the program builds is `100.0 + i` for an `int`
`i`, which a double represents exactly. -/
structure Order where
  order_id : Int
  quantity : Int
  price : ℚ
  deriving DecidableEq, Repr

/-- The class `OrderQueue` (main.cpp:16-22): the pending sequence `q`, front
of the queue first, and the termination flag `done`. -/
structure OrderQueue where
  q : List Order
  done : Bool
  deriving DecidableEq, Repr

namespace OrderQueue

/-- A freshly constructed queue: `q` empty, `done = false` (main.cpp:21). -/
def empty : OrderQueue := ⟨[], false⟩

/-- The member `push` (main.cpp:24-30): `q.push(order)` under the lock. -/
def push (self : OrderQueue) (order : Order) : OrderQueue :=
  { self with q := self.q ++ [order] }

/-- The wait predicate of `pop`, `!q.empty() || done` (main.cpp:34). -/
def popReady (self : OrderQueue) : Bool :=
  !self.q.isEmpty || self.done

/-- The member `pop` (main.cpp:32-42).  The argument `order` is the value of
the reference parameter on entry.  The result is `none` where the wait
predicate is false (the caller stays blocked); otherwise it is the returned
`bool`, the value of `order` on return and the queue afterwards. -/
def pop (self : OrderQueue) (order : Order) : Option (Bool × Order × OrderQueue) :=
  if self.popReady then
    match self.q with
    | [] => some (false, order, self)
    | front :: rest => some (true, front, { self with q := rest })
  else none

/-- The member `shutdown` (main.cpp:44-50): `done = true` under the lock. -/
def shutdown (self : OrderQueue) : OrderQueue :=
  { self with done := true }

end OrderQueue

/-! ## Sequences of queue calls -/

/-- One call of a member function of the queue.  `pop` carries the value the
caller's reference argument has on entry. -/
inductive QueueOp where
  | push (order : Order)
  | pop (order : Order)
  | shutdown
  deriving DecidableEq, Repr

/-- The orders handed to `push` by a call sequence, in call order. -/
def pushedOrders : List QueueOp → List Order
  | [] => []
  | .push o :: ops => o :: pushedOrders ops
  | _ :: ops => pushedOrders ops

/-- The orders delivered by the pops that returned `true`, in pop order; a
log entry is the returned `bool` and the value of `order` on return. -/
def deliveredOrders (log : List (Bool × Order)) : List Order :=
  (log.filter (fun r => r.1)).map (fun r => r.2)

/-- One call applied to the queue: the queue afterwards and the log entry
of the call (only `pop` returns something).  `none` when the call is a `pop`
that stays blocked. -/
def applyOp (self : OrderQueue) : QueueOp → Option (List (Bool × Order) × OrderQueue)
  | .push o => some ([], self.push o)
  | .pop order =>
    match self.pop order with
    | none => none
    | some (b, o, self') => some ([(b, o)], self')
  | .shutdown => some ([], self.shutdown)

/-- A sequence of calls applied one after the other (each call is atomic, so
this is one interleaving of the calls of all threads).  The result is the
log of all pop results and the final queue; `none` when some `pop` of the
sequence cannot return in the state it is called in. -/
def runOps : List QueueOp → OrderQueue → Option (List (Bool × Order) × OrderQueue)
  | [], self => some ([], self)
  | op :: ops, self =>
    match applyOp self op with
    | none => none
    | some (out, self') =>
      match runOps ops self' with
      | none => none
      | some (log, self'') => some (out ++ log, self'')

/-! ## Producer -/

/-- The order built in the loop body of `orderProducer`,
`{i, (i % 10) + 1, 100.0 + i}` (main.cpp:55).  `Int.tmod` is the truncating
remainder of C++. -/
def mkOrder (i : Int) : Order :=
  ⟨i, Int.tmod i 10 + 1, 100 + (i : ℚ)⟩

/-- The loop `for (int i = 0; i < total_orders; i++) queue.push(...)`
(main.cpp:54-56), from loop variable `i`, with a bound on the number of
iterations.  `i + 1` cannot overflow: it is computed only when
`i < total_orders`. -/
def producerLoop (total_orders : Int) : Nat → Int → OrderQueue → OrderQueue
  | 0, _, queue => queue
  | fuel + 1, i, queue =>
    if i < total_orders then
      producerLoop total_orders fuel (i + 1) (queue.push (mkOrder i))
    else queue

/-- The function `orderProducer` (main.cpp:53-58).  The loop runs
`total_orders` times when that is positive and not at all otherwise, so
`total_orders.toNat` iterations are enough (`producerLoop_eq`). -/
def orderProducer (queue : OrderQueue) (total_orders : Int) : OrderQueue :=
  (producerLoop total_orders total_orders.toNat 0 queue).shutdown

/-- The calls the loop of `orderProducer` makes on the queue, in order. -/
def producerLoopCalls (total_orders : Int) : Nat → Int → List QueueOp
  | 0, _ => []
  | fuel + 1, i =>
    if i < total_orders then
      QueueOp.push (mkOrder i) :: producerLoopCalls total_orders fuel (i + 1)
    else []

/-- The calls `orderProducer` makes on the queue, in order (main.cpp:54-57). -/
def orderProducerCalls (total_orders : Int) : List QueueOp :=
  producerLoopCalls total_orders total_orders.toNat 0 ++ [QueueOp.shutdown]

/-! ## The threads of `main` -/

/-- Where a worker thread stands in `orderConsumer` (main.cpp:60-65). -/
inductive WorkerPc where
  /-- about to call `queue.pop(order)` (loop condition, line 62) -/
  | atPop
  /-- after `pop` returned `true`; about to run `processed.fetch_add(1)` (line 63) -/
  | atInc
  /-- after `pop` returned `false`; the loop and the function are left -/
  | exited
  deriving DecidableEq, Repr

/-- A worker thread: its position and its local variable `order`. -/
structure Worker where
  pc : WorkerPc
  order : Order
  deriving DecidableEq, Repr

/-- The value of an `int` after wrap-around to 32 bits, as
`std::atomic<int>::fetch_add` computes it. -/
def wrapInt32 (x : Int) : Int :=
  (x + 2147483648) % 4294967296 - 2147483648

/-- The function `orderConsumer` (main.cpp:60-65) run with no other thread
touching the queue, with a bound on the number of loop iterations (calls of
`pop`).  The arguments are the queue, the local `order` and the counter
`processed`; the result is their values when the function returns.  `none`
when the bound is used up before `pop` returns `false`, or when a `pop`
blocks (nobody else is there to wake it). -/
def orderConsumer : Nat → OrderQueue → Order → Int → Option (OrderQueue × Order × Int)
  | 0, _, _, _ => none
  | fuel + 1, queue, order, processed =>
    match queue.pop order with
    | none => none
    | some (true, order', queue') =>
      orderConsumer fuel queue' order' (wrapInt32 (processed + 1))
    | some (false, order', queue') => some (queue', order', processed)

/-- The shared state of one run of `main` (main.cpp:67-87) and the position
of every thread.  `popped` is a history variable: the orders delivered by
successful pops so far, in pop order. -/
structure System where
  queue : OrderQueue
  processed : Int
  producerI : Int
  producerReturned : Bool
  workers : List Worker
  popped : List Order
  deriving DecidableEq, Repr

/-- A thread of the run: the producer or the `k`-th worker. -/
inductive Tid where
  | producer
  | worker (k : Nat)
  deriving DecidableEq, Repr

namespace System

/-- The state in which the threads start: empty queue, counter `0`, the
producer before its loop, every worker before its first `pop` with some
value in its uninitialised local `order`. -/
def init (locals : List Order) : System :=
  { queue := OrderQueue.empty, processed := 0, producerI := 0,
    producerReturned := false,
    workers := locals.map (fun o => ⟨WorkerPc.atPop, o⟩), popped := [] }

/-- One atomic step of thread `t`, `none` when `t` cannot step (it has
returned, or it is blocked in `pop`).  The producer's steps are one loop
iteration (a `push`) or the final `shutdown`; a worker's steps are one `pop`
or one `fetch_add`. -/
def step (total_orders : Int) (s : System) : Tid → Option System
  | .producer =>
    if s.producerReturned then none
    else if s.producerI < total_orders then
      some { s with queue := s.queue.push (mkOrder s.producerI),
                    producerI := s.producerI + 1 }
    else some { s with queue := s.queue.shutdown, producerReturned := true }
  | .worker k =>
    match s.workers[k]? with
    | none => none
    | some w =>
      match w.pc with
      | .atPop =>
        match s.queue.pop w.order with
        | none => none
        | some (true, o, queue') =>
          some { s with queue := queue', workers := s.workers.set k ⟨.atInc, o⟩,
                        popped := s.popped ++ [o] }
        | some (false, o, queue') =>
          some { s with queue := queue', workers := s.workers.set k ⟨.exited, o⟩ }
      | .atInc =>
        some { s with processed := wrapInt32 (s.processed + 1),
                      workers := s.workers.set k ⟨.atPop, w.order⟩ }
      | .exited => none

/-- A schedule (the threads in the order in which they take their atomic
steps) run from `s`; `none` when it names a thread that cannot step. -/
def run (total_orders : Int) : List Tid → System → Option System
  | [], s => some s
  | t :: ts, s =>
    match step total_orders s t with
    | none => none
    | some s' => run total_orders ts s'

/-- Every worker has left `orderConsumer`: the joins of main.cpp:86-87
return. -/
def allExited (s : System) : Bool :=
  s.workers.all (fun w => w.pc == WorkerPc.exited)

/-- The number of workers between a successful `pop` and their
`fetch_add`. -/
def atIncCount (s : System) : Nat :=
  (s.workers.map (fun w => if w.pc = WorkerPc.atInc then 1 else 0)).sum

/-- The number of atomic steps a worker at this position still takes when no
further order reaches it: an increment and the final `pop`, the final `pop`,
or none. -/
def pcWeight : WorkerPc → Nat
  | .atPop => 1
  | .atInc => 2
  | .exited => 0

/-- The number of atomic steps left in the run: three per order not yet
pushed (push, pop, increment), two per pending order, one for the
`shutdown`, and what each worker has left. -/
def stepsLeft (total_orders : Int) (s : System) : Nat :=
  3 * (total_orders - s.producerI).toNat + (if s.producerReturned then 0 else 1)
    + 2 * s.queue.q.length + (s.workers.map (fun w => pcWeight w.pc)).sum

end System

/-- The orders the producer builds for the loop indexes `0, ..., k - 1`. -/
def produced (k : Nat) : List Order :=
  (List.range k).map (fun (i : Nat) => mkOrder (i : Int))

/-- What holds of the queue, the producer and the workers in every state of
a run with `total_orders = N` and `W` workers. -/
structure QueueInv (N W : Nat) (s : System) : Prop where
  index : ∃ k : Nat, s.producerI = (k : Int) ∧ k ≤ N ∧ s.popped ++ s.queue.q = produced k
  flag : s.queue.done = s.producerReturned
  returned : s.producerReturned = true → s.producerI = (N : Int)
  exited : (∃ w ∈ s.workers, w.pc = WorkerPc.exited) → s.queue.done = true ∧ s.queue.q = []
  width : s.workers.length = W

/-- What holds of the counter in every state of a run: it counts the
delivered orders whose worker has done its `fetch_add`. -/
structure CounterInv (s : System) : Prop where
  nonneg : 0 ≤ s.processed
  count : s.processed + (s.atIncCount : Int) = (s.popped.length : Int)

/-! ## The queue operations -/

theorem pop_cons (front : Order) (rest : List Order) (done : Bool) (order : Order) :
    OrderQueue.pop ⟨front :: rest, done⟩ order = some (true, front, ⟨rest, done⟩) := by
  simp [OrderQueue.pop, OrderQueue.popReady]

theorem pop_nil_done (order : Order) :
    OrderQueue.pop ⟨[], true⟩ order = some (false, order, ⟨[], true⟩) := by
  simp [OrderQueue.pop, OrderQueue.popReady]

theorem pop_nil_not_done (order : Order) :
    OrderQueue.pop ⟨[], false⟩ order = none := by
  simp [OrderQueue.pop, OrderQueue.popReady]

/-- C1 (drain before terminate): on a non-empty pending sequence `pop`
returns `true` with the head of the sequence, leaves the tail as the new
pending sequence and keeps the termination flag, whatever the flag is; in
particular this is what it does right after `shutdown()`. -/
theorem pop_nonempty_returns_head (self : OrderQueue) (order : Order)
    (h : self.q ≠ []) :
    self.pop order = some (true, self.q.head h, ⟨self.q.tail, self.done⟩) ∧
    self.shutdown.pop order = some (true, self.q.head h, ⟨self.q.tail, true⟩) := by
  obtain ⟨q, done⟩ := self
  cases q with
  | nil => exact absurd rfl h
  | cons front rest =>
    exact ⟨pop_cons front rest done order, pop_cons front rest true order⟩

theorem pop_nonempty_returns_head_witness :
    (OrderQueue.mk [⟨7, 8, 107⟩, ⟨8, 9, 108⟩] true).pop ⟨0, 0, 0⟩
        = some (true, ⟨7, 8, 107⟩, ⟨[⟨8, 9, 108⟩], true⟩) ∧
    (OrderQueue.mk [⟨7, 8, 107⟩, ⟨8, 9, 108⟩] true).shutdown.pop ⟨0, 0, 0⟩
        = some (true, ⟨7, 8, 107⟩, ⟨[⟨8, 9, 108⟩], true⟩) :=
  pop_nonempty_returns_head ⟨[⟨7, 8, 107⟩, ⟨8, 9, 108⟩], true⟩ ⟨0, 0, 0⟩
    (List.cons_ne_nil _ _)

/-- C2 (EndOfWork): `pop` returns `false` exactly when the pending sequence
is empty and the termination flag is set, and then neither the queue nor the
caller's `order` changes; with an empty pending sequence and the flag unset
`pop` does not return (it has no transition), and that is the only state in
which it is blocked. -/
theorem pop_false_iff_empty_and_done (self : OrderQueue) (order : Order) :
    ((∃ order' self', self.pop order = some (false, order', self')) ↔
      (self.q = [] ∧ self.done = true)) ∧
    (∀ order' self', self.pop order = some (false, order', self') →
      self' = self ∧ order' = order) ∧
    (self.q = [] ∧ self.done = true → self.pop order = some (false, order, self)) ∧
    (self.pop order = none ↔ (self.q = [] ∧ self.done = false)) := by
  obtain ⟨q, done⟩ := self
  cases q with
  | nil =>
    cases done with
    | false => simp [pop_nil_not_done]
    | true => simp [pop_nil_done]
  | cons front rest => simp [pop_cons]

theorem pop_false_iff_empty_and_done_witness :
    OrderQueue.pop ⟨[], true⟩ ⟨3, 4, 103⟩ = some (false, ⟨3, 4, 103⟩, ⟨[], true⟩) ∧
    OrderQueue.pop ⟨[], false⟩ ⟨3, 4, 103⟩ = none :=
  ⟨(pop_false_iff_empty_and_done ⟨[], true⟩ ⟨3, 4, 103⟩).2.2.1 ⟨rfl, rfl⟩,
   (pop_false_iff_empty_and_done ⟨[], false⟩ ⟨3, 4, 103⟩).2.2.2.2 ⟨rfl, rfl⟩⟩

/-! ## Call sequences -/

theorem runOps_cons_some (op : QueueOp) (ops : List QueueOp) (self self' self'' : OrderQueue)
    (out log : List (Bool × Order))
    (h₁ : applyOp self op = some (out, self'))
    (h₂ : runOps ops self' = some (log, self'')) :
    runOps (op :: ops) self = some (out ++ log, self'') := by
  simp [runOps, h₁, h₂]

theorem runOps_cons_inv (op : QueueOp) (ops : List QueueOp) (self final : OrderQueue)
    (log : List (Bool × Order)) (h : runOps (op :: ops) self = some (log, final)) :
    ∃ out self' log', applyOp self op = some (out, self') ∧
      runOps ops self' = some (log', final) ∧ log = out ++ log' := by
  simp only [runOps] at h
  cases h₁ : applyOp self op with
  | none => simp [h₁] at h
  | some r =>
    obtain ⟨out, self'⟩ := r
    cases h₂ : runOps ops self' with
    | none => simp [h₁, h₂] at h
    | some r' =>
      obtain ⟨log', self''⟩ := r'
      simp only [h₁, h₂, Option.some.injEq, Prod.mk.injEq] at h
      exact ⟨out, self', log', rfl, by rw [← h.2, h₂], h.1.symm⟩

theorem runOps_append (ops₁ : List QueueOp) :
    ∀ (ops₂ : List QueueOp) (self mid final : OrderQueue) (log₁ log₂ : List (Bool × Order)),
      runOps ops₁ self = some (log₁, mid) → runOps ops₂ mid = some (log₂, final) →
      runOps (ops₁ ++ ops₂) self = some (log₁ ++ log₂, final) := by
  induction ops₁ with
  | nil =>
    intro ops₂ self mid final log₁ log₂ h₁ h₂
    simp only [runOps, Option.some.injEq, Prod.mk.injEq] at h₁
    obtain ⟨rfl, rfl⟩ := h₁
    simpa using h₂
  | cons op ops₁ ih =>
    intro ops₂ self mid final log₁ log₂ h₁ h₂
    obtain ⟨out, self', log', ha, hr, rfl⟩ := runOps_cons_inv op ops₁ self mid log₁ h₁
    have := ih ops₂ self' mid final log' log₂ hr h₂
    rw [List.cons_append, List.append_assoc]
    exact runOps_cons_some op (ops₁ ++ ops₂) self self' final out (log' ++ log₂) ha this

theorem deliveredOrders_append (l₁ l₂ : List (Bool × Order)) :
    deliveredOrders (l₁ ++ l₂) = deliveredOrders l₁ ++ deliveredOrders l₂ := by
  simp [deliveredOrders]

/-- What one call does to the pending sequence: the orders it pushes go to
the back, the orders it delivers come off the front. -/
theorem applyOp_conserves (self self' : OrderQueue) (op : QueueOp)
    (out : List (Bool × Order)) (h : applyOp self op = some (out, self')) :
    self.q ++ pushedOrders [op] = deliveredOrders out ++ self'.q := by
  obtain ⟨q, done⟩ := self
  cases op with
  | push o =>
    simp only [applyOp, Option.some.injEq, Prod.mk.injEq] at h
    obtain ⟨rfl, rfl⟩ := h
    simp [pushedOrders, deliveredOrders, OrderQueue.push]
  | shutdown =>
    simp only [applyOp, Option.some.injEq, Prod.mk.injEq] at h
    obtain ⟨rfl, rfl⟩ := h
    simp [pushedOrders, deliveredOrders, OrderQueue.shutdown]
  | pop order =>
    cases q with
    | nil =>
      cases done with
      | false => simp [applyOp, pop_nil_not_done] at h
      | true =>
        simp only [applyOp, pop_nil_done, Option.some.injEq, Prod.mk.injEq] at h
        obtain ⟨rfl, rfl⟩ := h
        simp [pushedOrders, deliveredOrders]
    | cons front rest =>
      simp only [applyOp, pop_cons, Option.some.injEq, Prod.mk.injEq] at h
      obtain ⟨rfl, rfl⟩ := h
      simp [pushedOrders, deliveredOrders]

theorem pushedOrders_cons (op : QueueOp) (ops : List QueueOp) :
    pushedOrders (op :: ops) = pushedOrders [op] ++ pushedOrders ops := by
  cases op <;> simp [pushedOrders]

/-- Conservation along a call sequence: what was pending at the start
followed by what was pushed is what was delivered followed by what is
pending at the end. -/
theorem runOps_conserves (ops : List QueueOp) :
    ∀ (self final : OrderQueue) (log : List (Bool × Order)),
      runOps ops self = some (log, final) →
      self.q ++ pushedOrders ops = deliveredOrders log ++ final.q := by
  induction ops with
  | nil =>
    intro self final log h
    simp only [runOps, Option.some.injEq, Prod.mk.injEq] at h
    obtain ⟨rfl, rfl⟩ := h
    simp [pushedOrders, deliveredOrders]
  | cons op ops ih =>
    intro self final log h
    obtain ⟨out, self', log', h₁, h₂, rfl⟩ := runOps_cons_inv op ops self final log h
    have e₁ := applyOp_conserves self self' op out h₁
    have e₂ := ih self' final log' h₂
    rw [pushedOrders_cons, deliveredOrders_append, ← List.append_assoc, e₁,
      List.append_assoc, e₂, List.append_assoc]

/-- Pops on a queue whose flag is set: the first `q.length` of them deliver
the pending orders in order, every further one returns `false`. -/
theorem runOps_drain (q : List Order) :
    ∀ (args : List Order) (more : List Order), args.length = q.length →
      runOps (args.map QueueOp.pop ++ more.map QueueOp.pop) ⟨q, true⟩ =
        some (q.map (fun o => (true, o)) ++ more.map (fun a => (false, a)), ⟨[], true⟩) := by
  induction q with
  | nil =>
    intro args more hlen
    have : args = [] := List.length_eq_zero.mp hlen
    subst this
    induction more with
    | nil => simp [runOps]
    | cons a more ih =>
      simp only [List.map_nil, List.nil_append, List.map_cons] at ih ⊢
      exact runOps_cons_some _ _ _ ⟨[], true⟩ _ [(false, a)] _
        (by simp [applyOp, pop_nil_done]) ih
  | cons front rest ih =>
    intro args more hlen
    cases args with
    | nil => simp at hlen
    | cons a args =>
      have hlen' : args.length = rest.length := by simpa using hlen
      have := ih args more hlen'
      simp only [List.map_cons, List.cons_append]
      exact runOps_cons_some _ _ _ ⟨rest, true⟩ _ [(true, front)] _
        (by simp [applyOp, pop_cons]) this

/-- C5 (shutdown loses no enqueued work): after `shutdown()` on a queue with
pending sequence `s` of length `k`, and without a push in between, the next
`k` pops return `true` and deliver the elements of `s` in order, and pop
number `k + 1` returns `false`. -/
theorem shutdown_then_pops_drain (self : OrderQueue) (args : List Order) (a : Order)
    (h : args.length = self.q.length) :
    runOps (args.map QueueOp.pop ++ [QueueOp.pop a]) self.shutdown =
      some (self.q.map (fun o => (true, o)) ++ [(false, a)], ⟨[], true⟩) := by
  have := runOps_drain self.q args [a] h
  simpa [OrderQueue.shutdown] using this

theorem shutdown_then_pops_drain_witness :
    runOps ([(⟨0, 0, 0⟩ : Order), ⟨0, 0, 0⟩].map QueueOp.pop ++ [QueueOp.pop ⟨0, 0, 0⟩])
        (OrderQueue.mk [⟨4, 5, 104⟩, ⟨5, 6, 105⟩] false).shutdown =
      some ([(⟨4, 5, 104⟩ : Order), ⟨5, 6, 105⟩].map (fun o => (true, o))
        ++ [(false, ⟨0, 0, 0⟩)], ⟨[], true⟩) :=
  shutdown_then_pops_drain ⟨[⟨4, 5, 104⟩, ⟨5, 6, 105⟩], false⟩
    [⟨0, 0, 0⟩, ⟨0, 0, 0⟩] ⟨0, 0, 0⟩ rfl

/-- C6 as stated fails: from a queue with the flag set and nothing pending,
a `push` followed by a `pop` makes that `pop` return `true`. -/
theorem pop_after_done_counterexample :
    ¬ (∀ (self : OrderQueue), self.done = true → self.q = [] →
        ∀ (ops : List QueueOp) (log : List (Bool × Order)) (final : OrderQueue),
          runOps ops self = some (log, final) → ∀ r ∈ log, r.1 = false) := by
  intro hall
  have h := hall ⟨[], true⟩ rfl rfl
    [QueueOp.push ⟨1, 2, 101⟩, QueueOp.pop ⟨0, 0, 0⟩] [(true, ⟨1, 2, 101⟩)] ⟨[], true⟩
    (by simp [runOps, applyOp, OrderQueue.push, pop_cons])
    (true, ⟨1, 2, 101⟩) (List.mem_singleton.mpr rfl)
  simp at h

/-- C6, amended: once the flag is set and nothing is pending, in every later
sequence of `pop` and `shutdown` calls (no `push`) no `pop` blocks, every
`pop` returns `false`, and the queue stays as it is. -/
theorem pop_after_done_empty_returns_false (self : OrderQueue)
    (hdone : self.done = true) (hq : self.q = []) (ops : List QueueOp)
    (hops : ∀ o, QueueOp.push o ∉ ops) :
    ∃ log, runOps ops self = some (log, self) ∧ ∀ r ∈ log, r.1 = false := by
  obtain ⟨q, done⟩ := self
  simp only at hdone hq
  subst hdone hq
  induction ops with
  | nil => exact ⟨[], rfl, by simp⟩
  | cons op ops ih =>
    have hops' : ∀ o, QueueOp.push o ∉ ops := fun o hmem =>
      hops o (List.mem_cons_of_mem _ hmem)
    obtain ⟨log, hrun, hlog⟩ := ih hops'
    cases op with
    | push o => exact absurd (List.mem_cons_self _ _) (hops o)
    | pop order =>
      refine ⟨[(false, order)] ++ log, ?_, ?_⟩
      · exact runOps_cons_some _ _ _ ⟨[], true⟩ _ _ _ (by simp [applyOp, pop_nil_done]) hrun
      · intro r hr
        rcases List.mem_append.mp hr with h | h
        · rw [List.mem_singleton.mp h]
        · exact hlog r h
    | shutdown =>
      refine ⟨[] ++ log, ?_, ?_⟩
      · exact runOps_cons_some _ _ _ ⟨[], true⟩ _ _ _ (by simp [applyOp, OrderQueue.shutdown]) hrun
      · simpa using hlog

theorem pop_after_done_empty_returns_false_witness :
    ∃ log, runOps [QueueOp.pop ⟨0, 0, 0⟩, QueueOp.shutdown, QueueOp.pop ⟨1, 2, 101⟩]
        ⟨[], true⟩ = some (log, ⟨[], true⟩) ∧ ∀ r ∈ log, r.1 = false :=
  pop_after_done_empty_returns_false ⟨[], true⟩ rfl rfl
    [QueueOp.pop ⟨0, 0, 0⟩, QueueOp.shutdown, QueueOp.pop ⟨1, 2, 101⟩]
    (by intro o h; simp at h)

theorem shutdown_iterate (self : OrderQueue) (n : Nat) :
    OrderQueue.shutdown^[n + 1] self = self.shutdown := by
  induction n with
  | zero => rfl
  | succ n ih =>
    rw [Function.iterate_succ_apply', ih]
    rfl

/-- C7 (idempotent shutdown): calling `shutdown()` any number `n ≥ 1` of
times gives the same queue as calling it once, with the flag set and the
pending sequence untouched; so every later call sequence behaves the same,
and the pops after it deliver the pending orders and then return `false`. -/
theorem shutdown_idempotent (self : OrderQueue) (n : Nat) (hn : 1 ≤ n) :
    OrderQueue.shutdown^[n] self = self.shutdown ∧
    self.shutdown.shutdown = self.shutdown ∧
    self.shutdown.done = true ∧
    self.shutdown.q = self.q ∧
    (∀ ops, runOps ops (OrderQueue.shutdown^[n] self) = runOps ops self.shutdown) ∧
    (∀ args more : List Order, args.length = self.q.length →
      runOps (args.map QueueOp.pop ++ more.map QueueOp.pop) (OrderQueue.shutdown^[n] self) =
        some (self.q.map (fun o => (true, o)) ++ more.map (fun a => (false, a)),
          ⟨[], true⟩)) := by
  obtain ⟨m, rfl⟩ : ∃ m, n = m + 1 := ⟨n - 1, by omega⟩
  have hit := shutdown_iterate self m
  refine ⟨hit, rfl, rfl, rfl, ?_, ?_⟩
  · intro ops
    rw [hit]
  · intro args more hlen
    rw [hit]
    exact runOps_drain self.q args more hlen

theorem shutdown_idempotent_witness :
    OrderQueue.shutdown^[3] ⟨[⟨4, 5, 104⟩], false⟩
      = (OrderQueue.mk [⟨4, 5, 104⟩] false).shutdown :=
  (shutdown_idempotent ⟨[⟨4, 5, 104⟩], false⟩ 3 (by decide)).1

theorem applyOp_done (self self' : OrderQueue) (op : QueueOp) (out : List (Bool × Order))
    (hdone : self.done = true) (h : applyOp self op = some (out, self')) :
    self'.done = true := by
  obtain ⟨q, done⟩ := self
  simp only at hdone
  subst hdone
  cases op with
  | push o =>
    simp only [applyOp, Option.some.injEq, Prod.mk.injEq] at h
    rw [← h.2]; rfl
  | shutdown =>
    simp only [applyOp, Option.some.injEq, Prod.mk.injEq] at h
    rw [← h.2]; rfl
  | pop order =>
    cases q with
    | nil =>
      simp only [applyOp, pop_nil_done, Option.some.injEq, Prod.mk.injEq] at h
      rw [← h.2]
    | cons front rest =>
      simp only [applyOp, pop_cons, Option.some.injEq, Prod.mk.injEq] at h
      rw [← h.2]

theorem runOps_done (ops : List QueueOp) :
    ∀ (self final : OrderQueue) (log : List (Bool × Order)), self.done = true →
      runOps ops self = some (log, final) → final.done = true := by
  induction ops with
  | nil =>
    intro self final log hdone h
    simp only [runOps, Option.some.injEq, Prod.mk.injEq] at h
    rw [← h.2]; exact hdone
  | cons op ops ih =>
    intro self final log hdone h
    obtain ⟨out, self', log', h₁, h₂, _⟩ := runOps_cons_inv op ops self final log h
    exact ih self' final log' (applyOp_done self self' op out hdone h₁) h₂

/-- C8 (the flag is never cleared): from a queue with `done` set, `push` of
any order, `pop` and `shutdown` all leave `done` set; hence after any call
sequence that follows a `shutdown()` the flag is set. -/
theorem done_never_cleared (self : OrderQueue) (hdone : self.done = true) :
    (∀ o, (self.push o).done = true) ∧
    (∀ order b order' self', self.pop order = some (b, order', self') → self'.done = true) ∧
    self.shutdown.done = true ∧
    (∀ ops log final, runOps ops self = some (log, final) → final.done = true) ∧
    (∀ (start : OrderQueue) ops log final,
      runOps ops start.shutdown = some (log, final) → final.done = true) := by
  refine ⟨fun _ => hdone, ?_, rfl, ?_, ?_⟩
  · intro order b order' self' h
    exact applyOp_done self self' (QueueOp.pop order) [(b, order')] hdone
      (by simp [applyOp, h])
  · intro ops log final h
    exact runOps_done ops self final log hdone h
  · intro start ops log final h
    exact runOps_done ops start.shutdown final log rfl h

theorem done_never_cleared_witness :
    ((OrderQueue.mk [⟨4, 5, 104⟩] true).push ⟨5, 6, 105⟩).done = true :=
  (done_never_cleared ⟨[⟨4, 5, 104⟩], true⟩ rfl).1 ⟨5, 6, 105⟩

/-- C9 (`push` always succeeds and appends at the tail): `push(o)` turns the
queue `(pending, done)` into `(pending ++ [o], done)`: the old elements keep
their places, the length grows by one, the flag is unchanged, and the call is
possible in every state. -/
theorem push_appends_at_tail (self : OrderQueue) (o : Order) :
    self.push o = ⟨self.q ++ [o], self.done⟩ ∧
    (self.push o).q.length = self.q.length + 1 ∧
    (self.push o).q.take self.q.length = self.q ∧
    (self.push o).q.getLast? = some o ∧
    (self.push o).done = self.done ∧
    applyOp self (QueueOp.push o) = some ([], ⟨self.q ++ [o], self.done⟩) := by
  refine ⟨rfl, ?_, ?_, ?_, rfl, rfl⟩
  · simp [OrderQueue.push]
  · simp [OrderQueue.push]
  · simp [OrderQueue.push]

/-! ## Producer -/

/-- The loop of `orderProducer` leaves by its condition, not by the iteration
bound: with at least `total_orders - i` iterations allowed it appends the
orders `i, i + 1, ..., total_orders - 1` and nothing else. -/
theorem producerLoop_eq (total_orders : Int) :
    ∀ (fuel : Nat) (i : Int) (queue : OrderQueue), (total_orders - i).toNat ≤ fuel →
      producerLoop total_orders fuel i queue =
        ⟨queue.q ++ (List.range (total_orders - i).toNat).map (fun (k : Nat) => mkOrder (i + (k : Int))),
          queue.done⟩ := by
  intro fuel
  induction fuel with
  | zero =>
    intro i queue h
    have h0 : (total_orders - i).toNat = 0 := by omega
    simp [producerLoop, h0]
  | succ fuel ih =>
    intro i queue h
    by_cases hlt : i < total_orders
    · have hn : (total_orders - i).toNat = (total_orders - (i + 1)).toNat + 1 := by omega
      have hfuel : (total_orders - (i + 1)).toNat ≤ fuel := by omega
      simp only [producerLoop, hlt, if_true]
      rw [ih (i + 1) _ hfuel, hn, List.range_succ_eq_map]
      simp only [OrderQueue.push, List.map_cons, List.map_map, List.append_assoc,
        List.singleton_append, Nat.cast_zero, add_zero]
      congr 3
      apply List.map_congr_left
      intro k _
      simp only [Function.comp, Nat.succ_eq_add_one, Nat.cast_add, Nat.cast_one]
      congr 1
      ring
    · have h0 : (total_orders - i).toNat = 0 := by omega
      simp [producerLoop, hlt, h0]

theorem producerLoopCalls_eq (total_orders : Int) :
    ∀ (fuel : Nat) (i : Int), (total_orders - i).toNat ≤ fuel →
      producerLoopCalls total_orders fuel i =
        (List.range (total_orders - i).toNat).map
          (fun (k : Nat) => QueueOp.push (mkOrder (i + (k : Int)))) := by
  intro fuel
  induction fuel with
  | zero =>
    intro i h
    have h0 : (total_orders - i).toNat = 0 := by omega
    simp [producerLoopCalls, h0]
  | succ fuel ih =>
    intro i h
    by_cases hlt : i < total_orders
    · have hn : (total_orders - i).toNat = (total_orders - (i + 1)).toNat + 1 := by omega
      have hfuel : (total_orders - (i + 1)).toNat ≤ fuel := by omega
      simp only [producerLoopCalls, hlt, if_true]
      rw [ih (i + 1) hfuel, hn, List.range_succ_eq_map]
      simp only [List.map_cons, List.map_map, Nat.cast_zero, add_zero]
      congr 1
      apply List.map_congr_left
      intro k _
      simp only [Function.comp, Nat.succ_eq_add_one, Nat.cast_add, Nat.cast_one]
      congr 2
      ring
    · have h0 : (total_orders - i).toNat = 0 := by omega
      simp [producerLoopCalls, hlt, h0]

/-- The order the producer builds for a loop index `i ≥ 0`. -/
theorem mkOrder_natCast (i : Nat) :
    mkOrder (i : Int) = ⟨(i : Int), ((i % 10 + 1 : Nat) : Int), ((100 + i : Nat) : ℚ)⟩ := by
  simp only [mkOrder, ← Int.ofNat_tmod]
  push_cast
  rfl

theorem runOps_pushes (orders : List Order) :
    ∀ (self : OrderQueue), runOps (orders.map QueueOp.push) self =
      some ([], ⟨self.q ++ orders, self.done⟩) := by
  induction orders with
  | nil => intro self; simp [runOps]
  | cons o orders ih =>
    intro self
    have h := ih (self.push o)
    simp only [List.map_cons]
    have := runOps_cons_some (QueueOp.push o) (orders.map QueueOp.push) self (self.push o) _
      [] [] rfl h
    simpa [OrderQueue.push] using this

theorem producerLoop_from_zero (N fuel : Nat) (hfuel : N ≤ fuel) (queue : OrderQueue) :
    producerLoop (N : Int) fuel 0 queue =
      ⟨queue.q ++ (List.range N).map (fun (i : Nat) =>
        (⟨(i : Int), ((i % 10 + 1 : Nat) : Int), ((100 + i : Nat) : ℚ)⟩ : Order)),
        queue.done⟩ := by
  rw [producerLoop_eq (N : Int) fuel 0 queue (by simpa using hfuel)]
  simp only [sub_zero, Int.toNat_ofNat, zero_add, mkOrder_natCast]

theorem producerLoopCalls_from_zero (N : Nat) :
    producerLoopCalls (N : Int) N 0 =
      (List.range N).map (fun (i : Nat) =>
        QueueOp.push ⟨(i : Int), ((i % 10 + 1 : Nat) : Int), ((100 + i : Nat) : ℚ)⟩) := by
  rw [producerLoopCalls_eq (N : Int) N 0 (by simp)]
  simp only [sub_zero, Int.toNat_ofNat, zero_add, mkOrder_natCast]

/-- C10 (producer output): for every `total_orders = N ≥ 0`, `orderProducer`
run on the empty queue with the flag unset leaves exactly `N` pending orders,
in ascending id order, order `i` being `(i, (i mod 10) + 1, 100 + i)`, and
leaves the flag set; the loop ends by its own condition; and the calls it
makes are the `N` pushes followed by one `shutdown`, also for `N = 0`. -/
theorem orderProducer_output (N : Nat) :
    orderProducer OrderQueue.empty (N : Int) =
      ⟨(List.range N).map (fun (i : Nat) =>
        (⟨(i : Int), ((i % 10 + 1 : Nat) : Int), ((100 + i : Nat) : ℚ)⟩ : Order)), true⟩ ∧
    (orderProducer OrderQueue.empty (N : Int)).q.length = N ∧
    (∀ fuel, N ≤ fuel →
      (producerLoop (N : Int) fuel 0 OrderQueue.empty).shutdown =
        orderProducer OrderQueue.empty (N : Int)) ∧
    orderProducerCalls (N : Int) =
      (List.range N).map (fun (i : Nat) =>
        QueueOp.push ⟨(i : Int), ((i % 10 + 1 : Nat) : Int), ((100 + i : Nat) : ℚ)⟩)
        ++ [QueueOp.shutdown] ∧
    runOps (orderProducerCalls (N : Int)) OrderQueue.empty =
      some ([], orderProducer OrderQueue.empty (N : Int)) := by
  have hprod : orderProducer OrderQueue.empty (N : Int) =
      ⟨(List.range N).map (fun (i : Nat) =>
        (⟨(i : Int), ((i % 10 + 1 : Nat) : Int), ((100 + i : Nat) : ℚ)⟩ : Order)), true⟩ := by
    simp only [orderProducer, Int.toNat_ofNat]
    rw [producerLoop_from_zero N N (le_refl N)]
    simp [OrderQueue.shutdown, OrderQueue.empty]
  have hcalls : orderProducerCalls (N : Int) =
      (List.range N).map (fun (i : Nat) =>
        QueueOp.push ⟨(i : Int), ((i % 10 + 1 : Nat) : Int), ((100 + i : Nat) : ℚ)⟩)
        ++ [QueueOp.shutdown] := by
    simp only [orderProducerCalls, Int.toNat_ofNat]
    rw [producerLoopCalls_from_zero N]
  refine ⟨hprod, ?_, ?_, hcalls, ?_⟩
  · rw [hprod]; simp
  · intro fuel hfuel
    rw [hprod, producerLoop_from_zero N fuel hfuel]
    simp [OrderQueue.shutdown, OrderQueue.empty]
  · rw [hcalls, hprod]
    have hpush := runOps_pushes ((List.range N).map (fun (i : Nat) =>
        (⟨(i : Int), ((i % 10 + 1 : Nat) : Int), ((100 + i : Nat) : ℚ)⟩ : Order)))
        OrderQueue.empty
    rw [List.map_map] at hpush
    have hshut : runOps [QueueOp.shutdown]
        ⟨OrderQueue.empty.q ++ (List.range N).map (fun (i : Nat) =>
          (⟨(i : Int), ((i % 10 + 1 : Nat) : Int), ((100 + i : Nat) : ℚ)⟩ : Order)),
          OrderQueue.empty.done⟩ =
        some ([], ⟨(List.range N).map (fun (i : Nat) =>
          (⟨(i : Int), ((i % 10 + 1 : Nat) : Int), ((100 + i : Nat) : ℚ)⟩ : Order)), true⟩) := by
      simp [runOps, applyOp, OrderQueue.shutdown, OrderQueue.empty]
    have := runOps_append _ _ _ _ _ _ _ hpush hshut
    simpa [Function.comp] using this

/-! ## Runs of the threads -/

theorem sum_map_set (f : Worker → Nat) (w' : Worker) :
    ∀ (l : List Worker) (k : Nat) (w : Worker), l[k]? = some w →
      ((l.set k w').map f).sum + f w = (l.map f).sum + f w' := by
  intro l
  induction l with
  | nil => intro k w h; simp at h
  | cons a l ih =>
    intro k w h
    cases k with
    | zero =>
      simp only [List.getElem?_cons_zero, Option.some.injEq] at h
      subst h
      simp only [List.set_cons_zero, List.map_cons, List.sum_cons]
      omega
    | succ k =>
      simp only [List.getElem?_cons_succ] at h
      have := ih k w h
      simp only [List.set_cons_succ, List.map_cons, List.sum_cons]
      omega

theorem produced_succ (k : Nat) : produced (k + 1) = produced k ++ [mkOrder (k : Int)] := by
  simp [produced, List.range_succ]

theorem produced_mono (k N : Nat) (h : k ≤ N) : produced k <+: produced N := by
  apply List.IsPrefix.map
  rw [List.prefix_iff_eq_take, List.length_range, List.take_range, Nat.min_eq_left h]

theorem produced_length (k : Nat) : (produced k).length = k := by
  simp [produced]

theorem wrapInt32_eq (x : Int) (h₀ : 0 ≤ x) (h₁ : x < 2147483648) : wrapInt32 x = x := by
  unfold wrapInt32
  omega

theorem wrapInt32_eq_self (x : Int) (h₀ : -2147483648 ≤ x) (h₁ : x ≤ 2147483647) :
    wrapInt32 x = x := by
  unfold wrapInt32
  omega

theorem init_queueInv (N : Nat) (locals : List Order) :
    QueueInv N locals.length (System.init locals) where
  index := ⟨0, rfl, Nat.zero_le N, rfl⟩
  flag := rfl
  returned := by intro h; simp [System.init] at h
  exited := by
    rintro ⟨w, hw, hpc⟩
    simp only [System.init, List.mem_map] at hw
    obtain ⟨o, _, rfl⟩ := hw
    simp at hpc
  width := by simp [System.init]

theorem init_counterInv (locals : List Order) : CounterInv (System.init locals) where
  nonneg := le_refl _
  count := by
    have : (System.init locals).atIncCount = 0 := by
      simp only [System.atIncCount, System.init, List.map_map]
      apply List.sum_eq_zero
      intro x hx
      simp only [List.mem_map, Function.comp] at hx
      obtain ⟨o, _, rfl⟩ := hx
      simp
    rw [this]
    simp [System.init]

/-- The five kinds of atomic step: a push by the producer, the shutdown by
the producer, a successful pop, the final pop, an increment. -/
theorem step_inv (total_orders : Int) (s s' : System) (t : Tid)
    (h : System.step total_orders s t = some s') :
    (t = Tid.producer ∧ s.producerReturned = false ∧ s.producerI < total_orders ∧
      s' = { s with queue := s.queue.push (mkOrder s.producerI),
                    producerI := s.producerI + 1 }) ∨
    (t = Tid.producer ∧ s.producerReturned = false ∧ ¬ s.producerI < total_orders ∧
      s' = { s with queue := s.queue.shutdown, producerReturned := true }) ∨
    (∃ k w front rest, t = Tid.worker k ∧ s.workers[k]? = some w ∧ w.pc = WorkerPc.atPop ∧
      s.queue.q = front :: rest ∧
      s' = { s with queue := ⟨rest, s.queue.done⟩,
                    workers := s.workers.set k ⟨WorkerPc.atInc, front⟩,
                    popped := s.popped ++ [front] }) ∨
    (∃ k w, t = Tid.worker k ∧ s.workers[k]? = some w ∧ w.pc = WorkerPc.atPop ∧
      s.queue.q = [] ∧ s.queue.done = true ∧
      s' = { s with workers := s.workers.set k ⟨WorkerPc.exited, w.order⟩ }) ∨
    (∃ k w, t = Tid.worker k ∧ s.workers[k]? = some w ∧ w.pc = WorkerPc.atInc ∧
      s' = { s with processed := wrapInt32 (s.processed + 1),
                    workers := s.workers.set k ⟨WorkerPc.atPop, w.order⟩ }) := by
  obtain ⟨⟨q, done⟩, processed, i, ret, workers, popped⟩ := s
  cases t with
  | producer =>
    simp only [System.step] at h
    cases ret with
    | true => simp at h
    | false =>
      by_cases hlt : i < total_orders
      · simp only [hlt, if_true, Bool.false_eq_true, if_false, Option.some.injEq] at h
        exact Or.inl ⟨rfl, rfl, hlt, h.symm⟩
      · simp only [hlt, Bool.false_eq_true, if_false, Option.some.injEq] at h
        exact Or.inr (Or.inl ⟨rfl, rfl, hlt, h.symm⟩)
  | worker k =>
    simp only [System.step] at h
    cases hw : workers[k]? with
    | none => simp [hw] at h
    | some w =>
      simp only [hw] at h
      cases hpc : w.pc with
      | exited => simp [hpc] at h
      | atInc =>
        simp only [hpc, Option.some.injEq] at h
        exact Or.inr (Or.inr (Or.inr (Or.inr ⟨k, w, rfl, hw, hpc, h.symm⟩)))
      | atPop =>
        simp only [hpc] at h
        cases q with
        | nil =>
          cases done with
          | false => simp [pop_nil_not_done] at h
          | true =>
            simp only [pop_nil_done, Option.some.injEq] at h
            exact Or.inr (Or.inr (Or.inr (Or.inl ⟨k, w, rfl, hw, hpc, rfl, rfl, h.symm⟩)))
        | cons front rest =>
          simp only [pop_cons, Option.some.injEq] at h
          exact Or.inr (Or.inr (Or.inl ⟨k, w, front, rest, rfl, hw, hpc, rfl, h.symm⟩))

theorem step_queueInv (N W : Nat) (s s' : System) (t : Tid) (hinv : QueueInv N W s)
    (h : System.step (N : Int) s t = some s') : QueueInv N W s' := by
  obtain ⟨⟨k, hk, hkN, hpq⟩, hflag, hret, hex, hwidth⟩ := hinv
  rcases step_inv (N : Int) s s' t h with
    ⟨-, hr, hlt, rfl⟩ | ⟨-, hr, hlt, rfl⟩ | ⟨j, w, front, rest, -, hw, hpc, hq, rfl⟩ |
    ⟨j, w, -, hw, hpc, hq, hdone, rfl⟩ | ⟨j, w, -, hw, hpc, rfl⟩
  · -- push
    refine ⟨⟨k + 1, ?_, ?_, ?_⟩, hflag, ?_, ?_, hwidth⟩
    · simp only [hk]; push_cast; rfl
    · rw [hk] at hlt; omega
    · simp only [OrderQueue.push, produced_succ, ← List.append_assoc, hpq, hk]
    · intro hr'; simp only at hr'; rw [hr] at hr'; cases hr'
    · intro hexists
      have := (hex hexists).1
      rw [hflag, hr] at this
      cases this
  · -- shutdown
    refine ⟨⟨k, hk, hkN, hpq⟩, rfl, ?_, ?_, hwidth⟩
    · intro _
      simp only
      rw [hk] at hlt ⊢
      have : k = N := by omega
      rw [this]
    · intro hexists
      have := (hex hexists).1
      rw [hflag, hr] at this
      cases this
  · -- successful pop
    refine ⟨⟨k, hk, hkN, ?_⟩, hflag, hret, ?_, ?_⟩
    · simp only [List.append_assoc, List.singleton_append]
      rw [← hq, hpq]
    · rintro ⟨x, hx, hxpc⟩
      rcases List.mem_or_eq_of_mem_set hx with hmem | rfl
      · have := (hex ⟨x, hmem, hxpc⟩).2
        rw [hq] at this
        cases this
      · cases hxpc
    · simp only [List.length_set, hwidth]
  · -- final pop
    refine ⟨⟨k, hk, hkN, hpq⟩, hflag, hret, ?_, ?_⟩
    · intro _
      exact ⟨hdone, hq⟩
    · simp only [List.length_set, hwidth]
  · -- increment
    refine ⟨⟨k, hk, hkN, hpq⟩, hflag, hret, ?_, ?_⟩
    · rintro ⟨x, hx, hxpc⟩
      rcases List.mem_or_eq_of_mem_set hx with hmem | rfl
      · exact hex ⟨x, hmem, hxpc⟩
      · cases hxpc
    · simp only [List.length_set, hwidth]

theorem popped_length_le (N W : Nat) (s : System) (hinv : QueueInv N W s) :
    s.popped.length + s.queue.q.length ≤ N := by
  obtain ⟨k, _, hkN, hpq⟩ := hinv.index
  have := congrArg List.length hpq
  rw [List.length_append, produced_length] at this
  omega

theorem step_counterInv (N W : Nat) (hN : (N : Int) < 2147483648) (s s' : System) (t : Tid)
    (hinv : QueueInv N W s) (hc : CounterInv s)
    (h : System.step (N : Int) s t = some s') : CounterInv s' := by
  obtain ⟨hnn, hcount⟩ := hc
  have hlen := popped_length_le N W s hinv
  rcases step_inv (N : Int) s s' t h with
    ⟨-, hr, hlt, rfl⟩ | ⟨-, hr, hlt, rfl⟩ | ⟨j, w, front, rest, -, hw, hpc, hq, rfl⟩ |
    ⟨j, w, -, hw, hpc, hq, hdone, rfl⟩ | ⟨j, w, -, hw, hpc, rfl⟩
  · exact ⟨hnn, hcount⟩
  · exact ⟨hnn, hcount⟩
  · refine ⟨hnn, ?_⟩
    have hsum := sum_map_set (fun w => if w.pc = WorkerPc.atInc then 1 else 0)
      ⟨WorkerPc.atInc, front⟩ s.workers j w hw
    simp only [hpc, if_true] at hsum
    simp only [System.atIncCount, List.length_append, List.length_singleton] at hcount ⊢
    have hsum' : ((s.workers.set j ⟨WorkerPc.atInc, front⟩).map
        (fun w => if w.pc = WorkerPc.atInc then 1 else 0)).sum =
        (s.workers.map (fun w => if w.pc = WorkerPc.atInc then 1 else 0)).sum + 1 := by
      simpa using hsum
    rw [hsum']
    omega
  · refine ⟨hnn, ?_⟩
    have hsum := sum_map_set (fun w => if w.pc = WorkerPc.atInc then 1 else 0)
      ⟨WorkerPc.exited, w.order⟩ s.workers j w hw
    simp only [hpc] at hsum
    simp only [System.atIncCount] at hcount ⊢
    have hsum' : ((s.workers.set j ⟨WorkerPc.exited, w.order⟩).map
        (fun w => if w.pc = WorkerPc.atInc then 1 else 0)).sum =
        (s.workers.map (fun w => if w.pc = WorkerPc.atInc then 1 else 0)).sum := by
      simpa using hsum
    rw [hsum']
    exact hcount
  · have hsum := sum_map_set (fun w => if w.pc = WorkerPc.atInc then 1 else 0)
      ⟨WorkerPc.atPop, w.order⟩ s.workers j w hw
    simp only [hpc, if_true] at hsum
    simp only [System.atIncCount] at hcount ⊢
    have hsum' : ((s.workers.set j ⟨WorkerPc.atPop, w.order⟩).map
        (fun w => if w.pc = WorkerPc.atInc then 1 else 0)).sum + 1 =
        (s.workers.map (fun w => if w.pc = WorkerPc.atInc then 1 else 0)).sum := by
      simpa using hsum
    have hwrap : wrapInt32 (s.processed + 1) = s.processed + 1 :=
      wrapInt32_eq _ (by omega) (by omega)
    constructor
    · show 0 ≤ wrapInt32 (s.processed + 1)
      rw [hwrap]; omega
    · show wrapInt32 (s.processed + 1) + (((s.workers.set j ⟨WorkerPc.atPop, w.order⟩).map
        (fun w => if w.pc = WorkerPc.atInc then 1 else 0)).sum : Nat) = (s.popped.length : Int)
      rw [hwrap]
      omega

/-- Every atomic step uses up one of the steps left. -/
theorem step_stepsLeft (N : Nat) (s s' : System) (t : Tid)
    (h : System.step (N : Int) s t = some s') :
    System.stepsLeft (N : Int) s' + 1 = System.stepsLeft (N : Int) s := by
  rcases step_inv (N : Int) s s' t h with
    ⟨-, hr, hlt, rfl⟩ | ⟨-, hr, hlt, rfl⟩ | ⟨j, w, front, rest, -, hw, hpc, hq, rfl⟩ |
    ⟨j, w, -, hw, hpc, hq, hdone, rfl⟩ | ⟨j, w, -, hw, hpc, rfl⟩
  · simp only [System.stepsLeft, OrderQueue.push, List.length_append, List.length_singleton]
    omega
  · simp only [System.stepsLeft, OrderQueue.shutdown, hr]
    simp
    omega
  · have hsum := sum_map_set (fun w => System.pcWeight w.pc)
      ⟨WorkerPc.atInc, front⟩ s.workers j w hw
    simp only [hpc] at hsum
    change _ + 1 = _ + 2 at hsum
    simp only [System.stepsLeft, hq, List.length_cons]
    omega
  · have hsum := sum_map_set (fun w => System.pcWeight w.pc)
      ⟨WorkerPc.exited, w.order⟩ s.workers j w hw
    simp only [hpc] at hsum
    change _ + 1 = _ + 0 at hsum
    simp only [System.stepsLeft]
    omega
  · have hsum := sum_map_set (fun w => System.pcWeight w.pc)
      ⟨WorkerPc.atPop, w.order⟩ s.workers j w hw
    simp only [hpc] at hsum
    change _ + 2 = _ + 1 at hsum
    simp only [System.stepsLeft]
    omega

theorem run_cons_inv (total_orders : Int) (t : Tid) (ts : List Tid) (s final : System)
    (h : System.run total_orders (t :: ts) s = some final) :
    ∃ s', System.step total_orders s t = some s' ∧ System.run total_orders ts s' = some final := by
  simp only [System.run] at h
  cases hs : System.step total_orders s t with
  | none => simp [hs] at h
  | some s' => exact ⟨s', rfl, by simpa [hs] using h⟩

theorem run_queueInv (N W : Nat) (sched : List Tid) :
    ∀ (s final : System), QueueInv N W s →
      System.run (N : Int) sched s = some final → QueueInv N W final := by
  induction sched with
  | nil =>
    intro s final hinv h
    simp only [System.run, Option.some.injEq] at h
    exact h ▸ hinv
  | cons t ts ih =>
    intro s final hinv h
    obtain ⟨s', hstep, hrun⟩ := run_cons_inv (N : Int) t ts s final h
    exact ih s' final (step_queueInv N W s s' t hinv hstep) hrun

theorem run_counterInv (N W : Nat) (hN : (N : Int) < 2147483648) (sched : List Tid) :
    ∀ (s final : System), QueueInv N W s → CounterInv s →
      System.run (N : Int) sched s = some final → CounterInv final := by
  induction sched with
  | nil =>
    intro s final _ hc h
    simp only [System.run, Option.some.injEq] at h
    exact h ▸ hc
  | cons t ts ih =>
    intro s final hinv hc h
    obtain ⟨s', hstep, hrun⟩ := run_cons_inv (N : Int) t ts s final h
    exact ih s' final (step_queueInv N W s s' t hinv hstep)
      (step_counterInv N W hN s s' t hinv hc hstep) hrun

theorem run_stepsLeft (N : Nat) (sched : List Tid) :
    ∀ (s final : System), System.run (N : Int) sched s = some final →
      System.stepsLeft (N : Int) final + sched.length = System.stepsLeft (N : Int) s := by
  induction sched with
  | nil =>
    intro s final h
    simp only [System.run, Option.some.injEq] at h
    simp [h]
  | cons t ts ih =>
    intro s final h
    obtain ⟨s', hstep, hrun⟩ := run_cons_inv (N : Int) t ts s final h
    have h₁ := ih s' final hrun
    have h₂ := step_stepsLeft N s s' t hstep
    simp only [List.length_cons]
    omega

theorem init_stepsLeft (N : Nat) (locals : List Order) :
    System.stepsLeft (N : Int) (System.init locals) = 3 * N + locals.length + 1 := by
  have hsum : ∀ l : List Order,
      ((l.map (fun o => (⟨WorkerPc.atPop, o⟩ : Worker))).map
        (fun w => System.pcWeight w.pc)).sum = l.length := by
    intro l
    induction l with
    | nil => rfl
    | cons o l ih =>
      simp only [List.map_cons, List.sum_cons, List.length_cons, ih]
      change 1 + _ = _
      omega
  simp only [System.stepsLeft, System.init, OrderQueue.empty, hsum]
  simp
  omega

/-- While some worker has not left its loop, some thread can take a step:
the run is not stuck. -/
theorem step_enabled (N W : Nat) (s : System) (hinv : QueueInv N W s)
    (hne : s.allExited = false) : ∃ t s', System.step (N : Int) s t = some s' := by
  cases hret : s.producerReturned with
  | false =>
    refine ⟨Tid.producer, ?_⟩
    simp only [System.step, hret, Bool.false_eq_true, if_false]
    by_cases hlt : s.producerI < (N : Int)
    · rw [if_pos hlt]; exact ⟨_, rfl⟩
    · rw [if_neg hlt]; exact ⟨_, rfl⟩
  | true =>
    have hdone : s.queue.done = true := by rw [hinv.flag, hret]
    have : ∃ w ∈ s.workers, w.pc ≠ WorkerPc.exited := by
      by_contra hcon
      push_neg at hcon
      have : s.allExited = true := by
        simp only [System.allExited, List.all_eq_true]
        intro w hw
        simp [hcon w hw]
      rw [this] at hne
      cases hne
    obtain ⟨w, hw, hpc⟩ := this
    obtain ⟨j, hj, hget⟩ := List.getElem_of_mem hw
    have hw' : s.workers[j]? = some w := by
      rw [List.getElem?_eq_getElem hj, hget]
    refine ⟨Tid.worker j, ?_⟩
    simp only [System.step, hw']
    cases hpc' : w.pc with
    | exited => exact absurd hpc' hpc
    | atInc => exact ⟨_, rfl⟩
    | atPop =>
      rcases hq : s.queue with ⟨q, done⟩
      rw [hq] at hdone
      simp only at hdone
      subst hdone
      cases q with
      | nil => rw [pop_nil_done]; exact ⟨_, rfl⟩
      | cons front rest => rw [pop_cons]; exact ⟨_, rfl⟩

theorem allExited_pc (s : System) (h : s.allExited = true) :
    ∀ w ∈ s.workers, w.pc = WorkerPc.exited := by
  intro w hw
  simp only [System.allExited, List.all_eq_true] at h
  simpa using h w hw

/-- What a state looks like once all of at least one workers have left
their loop. -/
theorem final_state (N W : Nat) (hW : 1 ≤ W) (s : System) (hinv : QueueInv N W s)
    (hall : s.allExited = true) :
    s.queue.q = [] ∧ s.producerReturned = true ∧ s.popped = produced N ∧
      s.atIncCount = 0 ∧ System.stepsLeft (N : Int) s = 0 := by
  have hpc := allExited_pc s hall
  obtain ⟨w, hw⟩ : ∃ w, w ∈ s.workers := by
    apply List.exists_mem_of_length_pos
    rw [hinv.width]; omega
  obtain ⟨hdone, hq⟩ := hinv.exited ⟨w, hw, hpc w hw⟩
  have hret : s.producerReturned = true := by rw [← hinv.flag]; exact hdone
  have hi := hinv.returned hret
  obtain ⟨k, hk, _, hpq⟩ := hinv.index
  have hkN : k = N := by rw [hi] at hk; exact_mod_cast hk.symm
  subst hkN
  rw [hq, List.append_nil] at hpq
  have hinc : s.atIncCount = 0 := by
    simp only [System.atIncCount]
    apply List.sum_eq_zero
    intro x hx
    simp only [List.mem_map] at hx
    obtain ⟨v, hv, rfl⟩ := hx
    simp [hpc v hv]
  have hweight : (s.workers.map (fun w => System.pcWeight w.pc)).sum = 0 := by
    apply List.sum_eq_zero
    intro x hx
    simp only [List.mem_map] at hx
    obtain ⟨v, hv, rfl⟩ := hx
    rw [hpc v hv]
    rfl
  refine ⟨hq, hret, hpq, hinc, ?_⟩
  simp only [System.stepsLeft, hi, hret, hq, hweight]
  simp

/-- C3 (conservation): with `total_orders = N ≥ 0` (an `int`) and `W ≥ 1`
workers, in every interleaving of the atomic steps of the producer and the
workers from the empty queue and counter `0`: once all workers have seen
`pop` return `false` the counter is `N`, the orders delivered are exactly the
`N` orders pushed, each once and in push order, and nothing is pending;
until then some thread can always take a step; and no interleaving has more
than `3 * N + W + 1` steps, a finished one exactly that many. -/
theorem conservation (N : Nat) (hN : (N : Int) < 2147483648) (locals : List Order)
    (hW : 1 ≤ locals.length) (sched : List Tid) (s : System)
    (hrun : System.run (N : Int) sched (System.init locals) = some s) :
    (s.allExited = true →
      s.processed = (N : Int) ∧ s.popped = produced N ∧ s.queue.q = [] ∧
        s.producerReturned = true ∧ sched.length = 3 * N + locals.length + 1) ∧
    (s.allExited = false → ∃ t s', System.step (N : Int) s t = some s') ∧
    sched.length ≤ 3 * N + locals.length + 1 := by
  have hinv := run_queueInv N locals.length sched _ s (init_queueInv N locals) hrun
  have hc := run_counterInv N locals.length hN sched _ s (init_queueInv N locals)
    (init_counterInv locals) hrun
  have hsteps := run_stepsLeft N sched _ s hrun
  rw [init_stepsLeft] at hsteps
  refine ⟨?_, step_enabled N locals.length s hinv, by omega⟩
  intro hall
  obtain ⟨hq, hret, hpop, hinc, hleft⟩ := final_state N locals.length hW s hinv hall
  refine ⟨?_, hpop, hq, hret, by omega⟩
  have hcount := hc.count
  rw [hinc, hpop, produced_length] at hcount
  simpa using hcount

theorem conservation_witness :
    System.run ((2 : Nat) : Int)
        [Tid.producer, Tid.worker 0, Tid.producer, Tid.worker 1, Tid.worker 0, Tid.worker 1,
          Tid.producer, Tid.worker 0, Tid.worker 1]
        (System.init [⟨0, 0, 0⟩, ⟨0, 0, 0⟩]) =
      some ⟨⟨[], true⟩, 2, 2, true,
        [⟨WorkerPc.exited, mkOrder 0⟩, ⟨WorkerPc.exited, mkOrder 1⟩],
        [mkOrder 0, mkOrder 1]⟩ ∧
    (System.mk ⟨[], true⟩ 2 2 true
        [⟨WorkerPc.exited, mkOrder 0⟩, ⟨WorkerPc.exited, mkOrder 1⟩]
        [mkOrder 0, mkOrder 1]).processed = ((2 : Nat) : Int) :=
  ⟨rfl, ((conservation 2 (by decide) [⟨0, 0, 0⟩, ⟨0, 0, 0⟩] (by decide)
    [Tid.producer, Tid.worker 0, Tid.producer, Tid.worker 1, Tid.worker 0, Tid.worker 1,
      Tid.producer, Tid.worker 0, Tid.worker 1]
    ⟨⟨[], true⟩, 2, 2, true,
      [⟨WorkerPc.exited, mkOrder 0⟩, ⟨WorkerPc.exited, mkOrder 1⟩],
      [mkOrder 0, mkOrder 1]⟩ rfl).1 rfl).1⟩

theorem deliveredOrders_drain_log (q : List Order) (more : List Order) :
    deliveredOrders (q.map (fun o => (true, o)) ++ more.map (fun a => (false, a))) = q := by
  simp only [deliveredOrders, List.filter_append, List.map_append, List.filter_map,
    List.map_map]
  have h₁ : List.filter ((fun (r : Bool × Order) => r.1) ∘ fun o => (true, o)) q = q :=
    List.filter_eq_self.mpr (fun _ _ => rfl)
  have h₂ : List.filter ((fun (r : Bool × Order) => r.1) ∘ fun a => (false, a)) more = [] :=
    List.filter_eq_nil_iff.mpr (fun _ _ => by simp)
  rw [h₁, h₂]
  simp [Function.comp]

/-- The calls of `orderProducer` applied to the empty queue leave the orders
`0, ..., N - 1` pending and the flag set. -/
theorem runOps_orderProducerCalls (N : Nat) :
    runOps (orderProducerCalls (N : Int)) OrderQueue.empty = some ([], ⟨produced N, true⟩) := by
  have hcalls : orderProducerCalls (N : Int) =
      (produced N).map QueueOp.push ++ [QueueOp.shutdown] := by
    simp only [orderProducerCalls, Int.toNat_ofNat]
    rw [producerLoopCalls_eq (N : Int) N 0 (by simp)]
    simp [produced, Function.comp]
  rw [hcalls]
  have hpush := runOps_pushes (produced N) OrderQueue.empty
  have hshut : runOps [QueueOp.shutdown] ⟨OrderQueue.empty.q ++ produced N, OrderQueue.empty.done⟩ =
      some ([], ⟨produced N, true⟩) := by
    simp [runOps, applyOp, OrderQueue.shutdown, OrderQueue.empty]
  have := runOps_append _ _ _ _ _ _ _ hpush hshut
  simpa using this

theorem produced_ids (N : Nat) :
    (produced N).map (fun o => o.order_id) = (List.range N).map (fun (i : Nat) => (i : Int)) := by
  simp [produced, mkOrder]

/-- C4 (FIFO delivery): for every sequence of `push`, `pop` and `shutdown`
calls applied to an initially empty queue, the orders delivered by the
successful pops, in pop order, followed by what is still pending, are the
orders pushed, in push order; so the delivered orders are a prefix of the
pushed ones.  When `orderProducer` with `total_orders = N` runs against one
worker, in any interleaving, the popped orders are always a prefix of the
orders `0, ..., N - 1`; until the worker has seen `pop` return `false` some
thread can take a step, no interleaving has more than `3 * N + 2` steps, and
once the worker has seen `pop` return `false`, after exactly `3 * N + 2`
steps, the popped ids are exactly `0, 1, ..., N - 1`.  And the calls of the
producer followed by `N + 1` pops all return: the first `N` pops deliver the
ids `0, 1, ..., N - 1` in this order and the last one returns `false`. -/
theorem fifo_delivery :
    (∀ (ops : List QueueOp) (log : List (Bool × Order)) (final : OrderQueue),
      runOps ops OrderQueue.empty = some (log, final) →
        pushedOrders ops = deliveredOrders log ++ final.q ∧
        deliveredOrders log <+: pushedOrders ops) ∧
    (∀ (N : Nat) (order0 : Order) (sched : List Tid) (s : System),
      System.run (N : Int) sched (System.init [order0]) = some s →
        s.popped <+: produced N ∧
        (s.allExited = true →
          s.popped.map (fun o => o.order_id) = (List.range N).map (fun (i : Nat) => (i : Int)) ∧
          s.popped = produced N ∧ sched.length = 3 * N + 2) ∧
        (s.allExited = false → ∃ t s', System.step (N : Int) s t = some s') ∧
        sched.length ≤ 3 * N + 2) ∧
    (∀ (N : Nat) (args : List Order) (a : Order), args.length = N →
      runOps (orderProducerCalls (N : Int) ++ (args.map QueueOp.pop ++ [QueueOp.pop a]))
          OrderQueue.empty =
        some ((produced N).map (fun o => (true, o)) ++ [(false, a)], ⟨[], true⟩) ∧
      (deliveredOrders ((produced N).map (fun o => (true, o)) ++ [(false, a)])).map
          (fun o => o.order_id) = (List.range N).map (fun (i : Nat) => (i : Int))) := by
  refine ⟨?_, ?_, ?_⟩
  · intro ops log final h
    have hcons := runOps_conserves ops OrderQueue.empty final log h
    simp only [OrderQueue.empty, List.nil_append] at hcons
    exact ⟨hcons, ⟨final.q, hcons.symm⟩⟩
  · intro N order0 sched s hrun
    have hinv := run_queueInv N 1 sched _ s (init_queueInv N [order0]) hrun
    have hsteps := run_stepsLeft N sched _ s hrun
    rw [init_stepsLeft] at hsteps
    simp only [List.length_singleton] at hsteps
    refine ⟨?_, ?_, step_enabled N 1 s hinv, by omega⟩
    · obtain ⟨k, _, hkN, hpq⟩ := hinv.index
      exact List.IsPrefix.trans ⟨s.queue.q, hpq⟩ (produced_mono k N hkN)
    · intro hall
      obtain ⟨_, _, hpop, _, hleft⟩ := final_state N 1 (le_refl 1) s hinv hall
      refine ⟨?_, hpop, by omega⟩
      rw [hpop]
      exact produced_ids N
  · intro N args a hlen
    constructor
    · have hdrain := runOps_drain (produced N) args [a] (by rw [hlen, produced_length])
      have := runOps_append _ _ _ _ _ _ _ (runOps_orderProducerCalls N) hdrain
      simpa using this
    · have := deliveredOrders_drain_log (produced N) [a]
      simp only [List.map_cons, List.map_nil] at this
      rw [this]
      exact produced_ids N

theorem fifo_delivery_witness :
    deliveredOrders [(true, (⟨4, 5, 104⟩ : Order))] <+:
      pushedOrders [QueueOp.push ⟨4, 5, 104⟩, QueueOp.push ⟨5, 6, 105⟩, QueueOp.pop ⟨0, 0, 0⟩] ∧
    (System.mk ⟨[], true⟩ 2 2 true [⟨WorkerPc.exited, mkOrder 1⟩]
        [mkOrder 0, mkOrder 1]).popped.map (fun o => o.order_id) =
      (List.range 2).map (fun (i : Nat) => (i : Int)) ∧
    runOps (orderProducerCalls ((2 : Nat) : Int) ++
        ([(⟨0, 0, 0⟩ : Order), ⟨0, 0, 0⟩].map QueueOp.pop ++ [QueueOp.pop ⟨0, 0, 0⟩]))
        OrderQueue.empty =
      some ((produced 2).map (fun o => (true, o)) ++ [(false, ⟨0, 0, 0⟩)], ⟨[], true⟩) :=
  ⟨(fifo_delivery.1
      [QueueOp.push ⟨4, 5, 104⟩, QueueOp.push ⟨5, 6, 105⟩, QueueOp.pop ⟨0, 0, 0⟩]
      [(true, ⟨4, 5, 104⟩)] ⟨[⟨5, 6, 105⟩], false⟩ rfl).2,
   ((fifo_delivery.2.1 2 ⟨0, 0, 0⟩
      [Tid.producer, Tid.worker 0, Tid.worker 0, Tid.producer, Tid.producer,
        Tid.worker 0, Tid.worker 0, Tid.worker 0]
      ⟨⟨[], true⟩, 2, 2, true, [⟨WorkerPc.exited, mkOrder 1⟩], [mkOrder 0, mkOrder 1]⟩
      rfl).2.1 rfl).1,
   (fifo_delivery.2.2 2 [⟨0, 0, 0⟩, ⟨0, 0, 0⟩] ⟨0, 0, 0⟩ rfl).1⟩

/-! ## Worker -/

theorem wrapInt32_range (x : Int) :
    -2147483648 ≤ wrapInt32 x ∧ wrapInt32 x ≤ 2147483647 := by
  unfold wrapInt32
  omega

theorem wrapInt32_succ (c : Int) (n : Nat) :
    wrapInt32 (wrapInt32 (c + 1) + (n : Int)) = wrapInt32 (c + ((n + 1 : Nat) : Int)) := by
  unfold wrapInt32
  omega

/-- The worker alone on a queue whose flag is set: with at least
`q.length + 1` iterations allowed it returns, having emptied the queue and
added `q.length` to the 32-bit counter. -/
theorem orderConsumer_eq (q : List Order) :
    ∀ (fuel : Nat) (order : Order) (c : Int), -2147483648 ≤ c → c ≤ 2147483647 →
      q.length + 1 ≤ fuel →
      orderConsumer fuel ⟨q, true⟩ order c =
        some (⟨[], true⟩, q.getLast?.getD order, wrapInt32 (c + (q.length : Int))) := by
  induction q with
  | nil =>
    intro fuel order c hlo hhi hfuel
    obtain ⟨fuel, rfl⟩ : ∃ m, fuel = m + 1 := ⟨fuel - 1, by simp at hfuel; omega⟩
    have hc : wrapInt32 (c + ((([] : List Order).length : Nat) : Int)) = c := by
      simp only [List.length_nil, Nat.cast_zero, add_zero]
      exact wrapInt32_eq_self c hlo hhi
    rw [hc]
    simp [orderConsumer, pop_nil_done]
  | cons front rest ih =>
    intro fuel order c hlo hhi hfuel
    obtain ⟨fuel, rfl⟩ : ∃ m, fuel = m + 1 := ⟨fuel - 1, by simp at hfuel; omega⟩
    have hfuel' : rest.length + 1 ≤ fuel := by simp at hfuel; omega
    have hr := wrapInt32_range (c + 1)
    simp only [orderConsumer, pop_cons]
    rw [ih fuel front (wrapInt32 (c + 1)) hr.1 hr.2 hfuel', wrapInt32_succ,
      List.getLast?_cons, List.length_cons]
    rfl

/-- The worker does not return before it has made `q.length + 1` calls of
`pop`. -/
theorem orderConsumer_none (q : List Order) :
    ∀ (fuel : Nat) (order : Order) (c : Int), fuel ≤ q.length →
      orderConsumer fuel ⟨q, true⟩ order c = none := by
  induction q with
  | nil =>
    intro fuel order c hfuel
    have : fuel = 0 := by simpa using hfuel
    subst this
    rfl
  | cons front rest ih =>
    intro fuel order c hfuel
    cases fuel with
    | zero => rfl
    | succ fuel =>
      simp only [orderConsumer, pop_cons]
      exact ih fuel front _ (by simpa using hfuel)

/-- C11 as stated fails for a counter at the top of the `int` range: from
`processed = 2147483647` and one pending order the worker leaves the counter
at `-2147483648`, not at `c + k = 2147483648`. -/
theorem orderConsumer_counter_counterexample :
    ¬ (∀ (queue : OrderQueue) (order : Order) (c : Int), queue.done = true →
        -2147483648 ≤ c → c ≤ 2147483647 →
        ∃ fuel order', orderConsumer fuel queue order c =
          some (⟨[], true⟩, order', c + (queue.q.length : Int))) := by
  intro hall
  obtain ⟨fuel, order', he⟩ := hall ⟨[⟨0, 1, 100⟩], true⟩ ⟨0, 0, 0⟩ 2147483647 rfl
    (by decide) (by decide)
  by_cases hfuel : fuel ≤ 1
  · rw [orderConsumer_none [⟨0, 1, 100⟩] fuel ⟨0, 0, 0⟩ 2147483647 (by simpa using hfuel)] at he
    cases he
  · rw [orderConsumer_eq [⟨0, 1, 100⟩] fuel ⟨0, 0, 0⟩ 2147483647 (by decide) (by decide)
      (by simp only [List.length_singleton]; omega)] at he
    simp only [Option.some.injEq, Prod.mk.injEq] at he
    have hcount := he.2.2
    simp only [List.length_singleton, wrapInt32] at hcount
    omega

/-- C11, amended: on a queue with the flag set and `k` pending orders, and a
counter `c` (an `int`), `orderConsumer` run alone returns after exactly
`k + 1` calls of `pop`, leaves the pending sequence empty and the flag set,
and leaves the counter at `c + k` wrapped to 32 bits, which is `c + k`
whenever `c + k ≤ 2147483647`. -/
theorem orderConsumer_drains_and_counts (queue : OrderQueue) (hdone : queue.done = true)
    (order : Order) (c : Int) (hlo : -2147483648 ≤ c) (hhi : c ≤ 2147483647)
    (fuel : Nat) (hfuel : queue.q.length + 1 ≤ fuel) :
    orderConsumer fuel queue order c =
      some (⟨[], true⟩, queue.q.getLast?.getD order,
        wrapInt32 (c + (queue.q.length : Int))) ∧
    (c + (queue.q.length : Int) ≤ 2147483647 →
      orderConsumer fuel queue order c =
        some (⟨[], true⟩, queue.q.getLast?.getD order, c + (queue.q.length : Int))) ∧
    (∀ fuel', fuel' ≤ queue.q.length → orderConsumer fuel' queue order c = none) := by
  obtain ⟨q, done⟩ := queue
  simp only at hdone
  subst hdone
  have hmain := orderConsumer_eq q fuel order c hlo hhi hfuel
  refine ⟨hmain, ?_, ?_⟩
  · intro hsum
    rw [hmain, wrapInt32_eq_self _ (by omega) hsum]
  · intro fuel' hfuel'
    exact orderConsumer_none q fuel' order c hfuel'

theorem orderConsumer_drains_and_counts_witness :
    orderConsumer 3 ⟨[⟨4, 5, 104⟩, ⟨5, 6, 105⟩], true⟩ ⟨0, 0, 0⟩ 5 =
      some (⟨[], true⟩,
        (OrderQueue.mk [⟨4, 5, 104⟩, ⟨5, 6, 105⟩] true).q.getLast?.getD ⟨0, 0, 0⟩,
        5 + ((OrderQueue.mk [⟨4, 5, 104⟩, ⟨5, 6, 105⟩] true).q.length : Int)) :=
  (orderConsumer_drains_and_counts ⟨[⟨4, 5, 104⟩, ⟨5, 6, 105⟩], true⟩ rfl ⟨0, 0, 0⟩ 5
    (by decide) (by decide) 3 (by decide)).2.1 (by decide)

/-- C12 (the queue does not reject work after shutdown): on a queue with the
flag set and nothing pending, `push(o)` followed by `pop()` returns `true`
with the order `o`, and the `pop` after that returns `false`; the queue is
then as it was. -/
theorem push_after_shutdown_is_delivered (self : OrderQueue) (o order order' : Order)
    (hdone : self.done = true) (hq : self.q = []) :
    (self.push o).pop order = some (true, o, self) ∧
    self.pop order' = some (false, order', self) ∧
    runOps [QueueOp.push o, QueueOp.pop order, QueueOp.pop order'] self =
      some ([(true, o), (false, order')], self) := by
  obtain ⟨q, done⟩ := self
  simp only at hdone hq
  subst hdone hq
  refine ⟨?_, pop_nil_done order', ?_⟩
  · simp [OrderQueue.push, pop_cons]
  · simp [runOps, applyOp, OrderQueue.push, pop_cons, pop_nil_done]

theorem push_after_shutdown_is_delivered_witness :
    ((OrderQueue.mk [] true).push ⟨9, 10, 109⟩).pop ⟨0, 0, 0⟩ =
      some (true, ⟨9, 10, 109⟩, ⟨[], true⟩) :=
  (push_after_shutdown_is_delivered ⟨[], true⟩ ⟨9, 10, 109⟩ ⟨0, 0, 0⟩ ⟨0, 0, 0⟩ rfl rfl).1

end OrderProcessing
